import Mathlib

/-!
Verification of the tree-to-flat-option resolution engine of
`src/useTreeSelect.ts` (mui-tree-select-unsorted).

The TypeScript hook is shallowly embedded.  Opaque caller-supplied tree
nodes are a type parameter `N` with decidable equality standing for
JavaScript reference identity (`===`).  Deferred values (`Promise`) are
embedded in two ways, each faithful to the part of the source it models:

* `SyncOrAsync`/`GenProg` model the generator trampoline
  `asyncOrAsyncBlock` (source lines 56-74), where only the sync/deferred
  distinction matters;
* `TimedV` attaches an explicit resolution time to a deferred lookup so
  that the interleaving of the per-child classification coroutines inside
  `getOpts` (source lines 470-512) can be simulated exactly: JavaScript is
  run-to-completion, so the synchronous sweep over the children happens
  first and every suspended coroutine resumes when its promise resolves,
  in resolution-time order.

Loops that walk caller-supplied lookups (`getPathToNode`) take explicit
fuel; `none` models non-termination on a malformed cyclic parent chain,
which the source does not guard against either.
-/

namespace TreeSelect

/-- Entry classification, `NodeType` in the source (line 50). -/
inductive NodeType : Type
  | LEAF
  | DOWN_BRANCH
  | UP_BRANCH
  deriving DecidableEq, Repr

/-- `FreeSoloNode` (source line 37): a free-solo input string together with
the branch node that was active when it was created (`parent`). -/
structure FreeSoloNode (N : Type) where
  text : String
  parent : Option N
  deriving DecidableEq, Repr

/-- The `node` field of an `InternalOption`: a tree node or a free-solo
wrapper (`Node | TreeSelectFreeSoloValueMapping<Node, FreeSolo>`). -/
abbrev NodeOrFree (N : Type) : Type := N ⊕ FreeSoloNode N

/-- `InternalOption` (source line 80): a flattened select entry. -/
structure InternalOption (N : Type) where
  node : NodeOrFree N
  type : NodeType
  path : List N
  deriving DecidableEq, Repr

/-- `instanceof FreeSoloNode` test on an entry's node. -/
def isFreeNode {N : Type} : NodeOrFree N → Bool
  | Sum.inr _ => true
  | Sum.inl _ => false

/-! ## The sync/async trampoline (`asyncOrAsyncBlock`, source lines 56-74) -/

/-- `SyncOrAsync<T>` (source line 10).  `promise r` records the value a
returned `Promise` eventually resolves with. -/
inductive SyncOrAsync (α : Type) : Type
  | now : α → SyncOrAsync α
  | promise : α → SyncOrAsync α
  deriving DecidableEq, Repr

/-- A generator as consumed by `asyncOrAsyncBlock`: at each step it either
returns, or yields a sync-or-deferred value and continues with the value
the trampoline feeds back via `it.next(value)`. -/
inductive GenProg (α ρ : Type) : Type
  | ret : ρ → GenProg α ρ
  | yld : SyncOrAsync α → (α → GenProg α ρ) → GenProg α ρ

/-- The value a step sequence finally returns once every yielded value
(deferred or not) has been delivered. -/
def finalReturn {α ρ : Type} : GenProg α ρ → ρ
  | GenProg.ret r => r
  | GenProg.yld (SyncOrAsync.now v) k => finalReturn (k v)
  | GenProg.yld (SyncOrAsync.promise v) k => finalReturn (k v)

/-- `true` when no yielded value along the executed step sequence is
deferred. -/
def allSync {α ρ : Type} : GenProg α ρ → Bool
  | GenProg.ret _ => true
  | GenProg.yld (SyncOrAsync.now v) k => allSync (k v)
  | GenProg.yld (SyncOrAsync.promise _) _ => false

/-- `asyncOrAsyncBlock` (source lines 56-74): drive the generator; a ready
value is fed back immediately, a deferred value attaches a continuation
with `.then(...)`, which always produces a deferred overall result. -/
def asyncOrAsyncBlock {α ρ : Type} : GenProg α ρ → SyncOrAsync ρ
  | GenProg.ret r => SyncOrAsync.now r
  | GenProg.yld (SyncOrAsync.now v) k => asyncOrAsyncBlock (k v)
  | GenProg.yld (SyncOrAsync.promise v) k => SyncOrAsync.promise (finalReturn (k v))

/-! ## The path resolver (`getPathToNode`, source lines 298-321) -/

/-- The `while (parent !== null)` loop of `getPathToNode` (source lines
310-315), pushing each non-nullish parent and recursing on its parent.
`fuel` bounds the number of lookups; `none` models non-termination on a
cyclic parent chain. -/
def pathLoop {N : Type} (getParent : N → Option N) : Option N → Nat → Option (List N)
  | none, _ => some []
  | some _, 0 => none
  | some p, fuel + 1 => (pathLoop getParent (getParent p) fuel).map (fun rest => p :: rest)

/-- `getPathToNode` (source lines 298-321).  The first lookup is seeded
from the free-solo wrapper's carried `parent` when `toNode` is a
`FreeSoloNode` — `getParent` is never invoked on the wrapper itself —
and from `getParent(toNode)` otherwise. -/
def getPathToNode {N : Type} (toNode : NodeOrFree N) (getParent : N → Option N)
    (fuel : Nat) : Option (List N) :=
  pathLoop getParent
    (match toNode with
     | Sum.inr f => f.parent
     | Sum.inl n => getParent n)
    fuel

/-- Specification-side description of an ancestor chain: `ChainFrom
getParent st cs` holds when iterating `getParent` from the seed `st`
yields exactly the nodes `cs`, nearest ancestor first, ending at the
first nullish result. -/
inductive ChainFrom {N : Type} (getParent : N → Option N) : Option N → List N → Prop
  | nil : ChainFrom getParent none []
  | cons (p : N) (cs : List N) :
      ChainFrom getParent (getParent p) cs → ChainFrom getParent (some p) (p :: cs)

theorem pathLoop_of_chain {N : Type} {getParent : N → Option N} {st : Option N}
    {cs : List N} (h : ChainFrom getParent st cs) :
    ∀ fuel : Nat, cs.length ≤ fuel → pathLoop getParent st fuel = some cs := by
  induction h with
  | nil =>
      intro fuel _
      cases fuel <;> rfl
  | cons p cs h ih =>
      intro fuel hle
      cases fuel with
      | zero => simp at hle
      | succ f =>
          have hf : cs.length ≤ f := by
            have := hle
            simp only [List.length_cons] at this
            omega
          simp [pathLoop, ih f hf]

/-! ## Per-child classification (`parseChildNode`, source lines 474-496) -/

/-- Synchronous denotation of the `parseChildNode` generator (source lines
474-496): push a `DOWN_BRANCH` entry when `isBranch` answers true, then
return early unless `isBranchSelectable` also answers true, in which case
(or when the child is not a branch) push a `LEAF` entry. -/
def parseChildNode {N : Type} (isBranchFn selectableFn : N → Bool) (path : List N)
    (childNode : N) : List (InternalOption N) :=
  if isBranchFn childNode then
    ⟨Sum.inl childNode, NodeType.DOWN_BRANCH, path⟩ ::
      (if selectableFn childNode then [⟨Sum.inl childNode, NodeType.LEAF, path⟩] else [])
  else
    [⟨Sum.inl childNode, NodeType.LEAF, path⟩]

/-! ## Timed simulation of the children block of `getOpts` (source lines 470-512)

Each child runs `parseChildNode` as a coroutine driven by
`asyncOrAsyncBlock`, pushing into the one shared `options` array.  A
deferred lookup result is modelled as `TimedV.later t v`: a promise that
resolves with `v` at global time `t`.  JavaScript's run-to-completion
semantics mean the `for` loop over the children executes synchronously
first (`phase1`); afterwards the suspended coroutines resume in promise
resolution-time order (`phase2`, the wait behind `Promise.all`). -/

/-- A deferred-or-immediate lookup result with an explicit resolution
time for the deferred case. -/
inductive TimedV (α : Type) : Type
  | now : α → TimedV α
  | later : Nat → α → TimedV α
  deriving DecidableEq, Repr

/-- The value a lookup delivers, whether immediately or on resolution. -/
def TimedV.tval {α : Type} : TimedV α → α
  | TimedV.now a => a
  | TimedV.later _ a => a

/-- `true` iff the lookup result is immediate (not a `Promise`). -/
def TimedV.isNow {α : Type} : TimedV α → Bool
  | TimedV.now _ => true
  | TimedV.later _ _ => false

/-- A suspended `parseChildNode` coroutine: which yield it is parked on,
together with the value its pending promise will deliver. -/
inductive ChildCont (N : Type) : Type
  | isBranchK : N → Bool → ChildCont N
  | selectableK : N → Bool → ChildCont N
  deriving DecidableEq, Repr

/-- A pending promise resolution: resolution time plus the suspended
coroutine it resumes. -/
structure Pend (N : Type) where
  time : Nat
  cont : ChildCont N
  deriving DecidableEq, Repr

/-- `parseChildNode` once the `isBranch` answer `b` is known (source lines
475-495): push the `DOWN_BRANCH` entry, then either finish synchronously
using the `isBranchSelectable` answer or suspend on its promise. -/
def afterIsBranch {N : Type} (selectableFn : N → TimedV Bool) (path : List N) (c : N)
    (b : Bool) : List (InternalOption N) × Option (Pend N) :=
  if b then
    match selectableFn c with
    | TimedV.now s =>
        (⟨Sum.inl c, NodeType.DOWN_BRANCH, path⟩ ::
            (if s then [⟨Sum.inl c, NodeType.LEAF, path⟩] else []),
          none)
    | TimedV.later t s =>
        ([⟨Sum.inl c, NodeType.DOWN_BRANCH, path⟩], some ⟨t, ChildCont.selectableK c s⟩)
  else
    ([⟨Sum.inl c, NodeType.LEAF, path⟩], none)

/-- Starting `parseChildNode c`: run until the first suspension or until
completion (source lines 500-506, `asyncOrAsyncBlock(parseChildNode(childNode))`). -/
def startChild {N : Type} (isBranchFn selectableFn : N → TimedV Bool) (path : List N)
    (c : N) : List (InternalOption N) × Option (Pend N) :=
  match isBranchFn c with
  | TimedV.now b => afterIsBranch selectableFn path c b
  | TimedV.later t b => ([], some ⟨t, ChildCont.isBranchK c b⟩)

/-- Resuming a suspended coroutine when its promise resolves. -/
def resumeChild {N : Type} (selectableFn : N → TimedV Bool) (path : List N) :
    ChildCont N → List (InternalOption N) × Option (Pend N)
  | ChildCont.isBranchK c b => afterIsBranch selectableFn path c b
  | ChildCont.selectableK c s =>
      ((if s then [⟨Sum.inl c, NodeType.LEAF, path⟩] else []), none)

/-- The synchronous `for` sweep over `children` (source lines 500-506):
entries from fully synchronous children land in children-lookup order;
suspended children contribute a pending resolution instead. -/
def phase1 {N : Type} (isBranchFn selectableFn : N → TimedV Bool) (path : List N) :
    List N → List (InternalOption N) × List (Pend N)
  | [] => ([], [])
  | c :: cs =>
      let r := startChild isBranchFn selectableFn path c
      let rest := phase1 isBranchFn selectableFn path cs
      (r.1 ++ rest.1, r.2.toList ++ rest.2)

/-- The pending resolution with the smallest time (promises resolve in
resolution-time order; ties resume in registration order), together with
the remaining pendings in their original order. -/
def pickMin {N : Type} : List (Pend N) → Option (Pend N × List (Pend N))
  | [] => none
  | p :: ps =>
      match pickMin ps with
      | none => some (p, [])
      | some (q, rest) => if p.time ≤ q.time then some (p, ps) else some (q, p :: rest)

/-- The event loop behind `Promise.all` (source lines 498-510): resume
pending coroutines in resolution order, appending their pushes to the
shared array as they occur. -/
def phase2 {N : Type} (selectableFn : N → TimedV Bool) (path : List N) :
    Nat → List (Pend N) → List (InternalOption N) → List (InternalOption N)
  | 0, _, acc => acc
  | fuel + 1, pends, acc =>
      match pickMin pends with
      | none => acc
      | some (p, rest) =>
          let r := resumeChild selectableFn path p.cont
          phase2 selectableFn path fuel (rest ++ r.2.toList) (acc ++ r.1)

/-- The combined child entries produced by the children block of `getOpts`
(source lines 470-512).  Each coroutine suspends at most twice, so
`2 * children.length + 1` fuel drains every pending resolution. -/
def childOptions {N : Type} (isBranchFn selectableFn : N → TimedV Bool) (path : List N)
    (children : List N) : List (InternalOption N) :=
  let r := phase1 isBranchFn selectableFn path children
  phase2 selectableFn path (2 * children.length + 1) r.2 r.1

/-! ## `getOpts` (source lines 446-528) -/

/-- The `UP_BRANCH` block of `getOpts` (source lines 460-468).  The guard
in the source reads `curBranch ?? null !== null`; by operator precedence
this is `curBranch ?? (null !== null)`, i.e. `curBranch ?? false` — a
JavaScript truthiness test on `curBranch`, not a null check.  `truthy`
models JavaScript truthiness of a caller-supplied node value (always
`true` for object nodes, `false` for `0`, `""`, `false`, `NaN`).  The
emitted entry's path is `path.slice(1)`, dropping the branch itself. -/
def upBranchOpts {N : Type} (curBranch : Option N) (truthy : N → Bool) (path : List N) :
    List (InternalOption N) :=
  match curBranch with
  | none => []
  | some b => if truthy b then [⟨Sum.inl b, NodeType.UP_BRANCH, path.drop 1⟩] else []

/-- `getOpts` (source lines 446-528): the `UP_BRANCH` entry (pushed first)
followed by the combined child entries.  `path` is the resolved `pathArg`,
i.e. `[curBranch, ...ancestorsOfCurBranch]` (source lines 423-438), and
`children` is the resolved `getChildren(curBranch) || []`. -/
def getOpts {N : Type} (curBranch : Option N) (truthy : N → Bool) (path : List N)
    (isBranchFn selectableFn : N → TimedV Bool) (children : List N) :
    List (InternalOption N) :=
  upBranchOpts curBranch truthy path ++ childOptions isBranchFn selectableFn path children

/-! ## The exposed loading flag (source line 1403) -/

/-- `loadingOptions` (source line 1403):
`pathResult.loading || optionsResult.loading`.  The flags are the
pending states of the `usePromise` observables for `pathArg` and the
option-builder result; `valueResult.loading` is not consulted. -/
def loadingOptions (pathLoading optionsLoading : Bool) : Bool :=
  pathLoading || optionsLoading

/-! ## The equivalence matcher (`isOptionEqualToValue`, source lines 613-658) -/

/-- `isOptionEqualToValue` (source lines 613-658).  Branch-typed entries
are never equal, before any other consideration.  Otherwise an external
override (`isOptionEqualToValueProp`, modelled as `eqProp`) is delegated
to on the two underlying nodes; absent one, free-solo nodes compare by
text and carried parent reference, and two tree nodes compare by node
identity plus element-wise path equality.  (The `multiple && freeSolo &&
typeof option === "string"` rewrap in the source handles MUI passing a
raw string as the option; in this typed embedding the option is always an
`InternalOption`, so that branch cannot fire.) -/
def isOptionEqualToValue {N : Type} [DecidableEq N]
    (eqProp : Option (NodeOrFree N → NodeOrFree N → Bool))
    (option value : InternalOption N) : Bool :=
  if option.type == NodeType.UP_BRANCH || option.type == NodeType.DOWN_BRANCH
      || value.type == NodeType.UP_BRANCH || value.type == NodeType.DOWN_BRANCH then
    false
  else
    match eqProp with
    | some f => f option.node value.node
    | none =>
      match option.node, value.node with
      | Sum.inr fo, Sum.inr fv => fv.text == fo.text && fo.parent == fv.parent
      | Sum.inr _, Sum.inl _ => false
      | Sum.inl _, Sum.inr _ => false
      | Sum.inl n1, Sum.inl n2 =>
          n1 == n2 && option.path.length == value.path.length &&
            (option.path.zip value.path).all fun p => p.1 == p.2

/-! ## The filter (`filterOptions`, source lines 776-876) -/

/-- JavaScript `Map.set` on an insertion-ordered association list:
updating an existing key keeps its position, a new key is appended. -/
def mapSet {N α : Type} [DecidableEq N] (m : List (N × α)) (k : N) (v : α) :
    List (N × α) :=
  if m.any fun p => p.1 == k then
    m.map fun p => if p.1 == k then (k, v) else p
  else m ++ [(k, v)]

/-- JavaScript `Map.get`. -/
def mapGet {N α : Type} [DecidableEq N] (m : List (N × α)) (k : N) : Option α :=
  (m.find? fun p => p.1 == k).map Prod.snd

/-- JavaScript `Set.add` on an insertion-ordered list: first insertion
wins, duplicates are ignored. -/
def setAdd {N : Type} [DecidableEq N] (s : List N) (k : N) : List N :=
  if s.contains k then s else s ++ [k]

/-- The accumulator of the partitioning `reduce` (source lines 784-813). -/
structure FilterAcc (N : Type) where
  upBranch : Option (InternalOption N)
  freeSoloOptions : List (InternalOption N)
  branchOptionsMap : List (N × InternalOption N)
  leafOptionsMap : List (N × InternalOption N)
  optionKeys : List N

/-- One step of the partitioning `reduce` (source lines 785-799): route the
entry to the `UP_BRANCH` slot, the pinned free-solo list, or the keyed
branch/leaf maps while recording its key. -/
def filterStep {N : Type} [DecidableEq N] (acc : FilterAcc N) (o : InternalOption N) :
    FilterAcc N :=
  if o.type == NodeType.UP_BRANCH then
    { acc with upBranch := some o }
  else
    match o.node with
    | Sum.inr _ => { acc with freeSoloOptions := acc.freeSoloOptions ++ [o] }
    | Sum.inl n =>
        if o.type == NodeType.DOWN_BRANCH then
          { acc with
              branchOptionsMap := mapSet acc.branchOptionsMap n o,
              optionKeys := setAdd acc.optionKeys n }
        else
          { acc with
              leafOptionsMap := mapSet acc.leafOptionsMap n o,
              optionKeys := setAdd acc.optionKeys n }

/-- The whole partitioning `reduce` (source lines 784-813). -/
def filterReduce {N : Type} [DecidableEq N] (options : List (InternalOption N)) :
    FilterAcc N :=
  options.foldl filterStep ⟨none, [], [], [], []⟩

/-- The single-select bypass guard (source lines 817-829): single mode, a
held selection whose label already equals the query text, and no candidate
entry equivalent to it. -/
def filterBypass {N : Type} [DecidableEq N] (multiple : Bool)
    (value : Option (InternalOption N)) (inputValue : String)
    (getLabel : NodeOrFree N → String)
    (eqProp : Option (NodeOrFree N → NodeOrFree N → Bool))
    (options : List (InternalOption N)) : Bool :=
  !multiple &&
    (match value with
     | none => false
     | some v =>
         getLabel v.node == inputValue &&
           !(options.any fun o => isOptionEqualToValue eqProp o v))

/-- One step of the recombining `reduce` (source lines 841-852): for a
matched key, append its branch entry to the first list and its leaf entry
to the second. -/
def collectStep {N : Type} [DecidableEq N] (branchMap leafMap : List (N × InternalOption N))
    (fl : List (InternalOption N) × List (InternalOption N)) (n : N) :
    List (InternalOption N) × List (InternalOption N) :=
  let fl1 :=
    match mapGet branchMap n with
    | some b => (fl.1 ++ [b], fl.2)
    | none => fl
  match mapGet leafMap n with
  | some l => (fl1.1, fl1.2 ++ [l])
  | none => fl1

/-- The recombining `reduce` over the external predicate's matched keys
(source lines 834-857), in the predicate's order. -/
def collectFiltered {N : Type} [DecidableEq N]
    (branchMap leafMap : List (N × InternalOption N)) (matched : List N) :
    List (InternalOption N) × List (InternalOption N) :=
  matched.foldl (collectStep branchMap leafMap) ([], [])

/-- `filterOptions` (source lines 776-876).  `fProp` is the external
filter predicate already applied to the query state (it receives the
deduplicated keys, `Array.from(optionKeys)`, and returns the matched
subsequence).  When the bypass guard holds the candidate list is returned
untouched; otherwise output is `[upBranch?, ...branches, ...leaves,
...freeSoloOptions]`. -/
def filterOptions {N : Type} [DecidableEq N] (multiple : Bool)
    (value : Option (InternalOption N)) (inputValue : String)
    (getLabel : NodeOrFree N → String)
    (eqProp : Option (NodeOrFree N → NodeOrFree N → Bool))
    (fProp : List N → List N) (options : List (InternalOption N)) :
    List (InternalOption N) :=
  let acc : FilterAcc N := filterReduce options
  if filterBypass multiple value inputValue getLabel eqProp options then
    options
  else
    let pair := collectFiltered acc.branchOptionsMap acc.leafOptionsMap (fProp acc.optionKeys)
    match acc.upBranch with
    | none => pair.1 ++ pair.2 ++ acc.freeSoloOptions
    | some u => u :: (pair.1 ++ pair.2 ++ acc.freeSoloOptions)

/-! ## The exposed `options` memo (source lines 668-721) -/

/-- The `value` memo's shape (source lines 586-611): a single optional
entry in single mode, a list of entries in multi mode. -/
inductive CurValue (N : Type) : Type
  | single : Option (InternalOption N) → CurValue N
  | multi : List (InternalOption N) → CurValue N

/-- `multiple ? value : [value]` (source line 687): the held entries as a
list, `none` standing for the nullish single value. -/
def valueAsList {N : Type} : CurValue N → List (Option (InternalOption N))
  | CurValue.single o => [o]
  | CurValue.multi l => l.map some

/-- The `options` memo (source lines 668-721).  `optionsData` is
`optionsResult.data` (`none` while the option-builder result is pending),
`pathData` is `pathResult.data`.  With resolved data, a free-solo "add"
entry for the current input is appended unless an equivalent free-solo
value is already held; without resolved data the deterministic placeholder
is returned: `[]` at root, otherwise one `UP_BRANCH` entry with an empty
path (source lines 705-710). -/
def optionsMemo {N : Type} [DecidableEq N] (optionsData : Option (List (InternalOption N)))
    (freeSolo : Bool) (inputValue : String) (value : CurValue N) (curBranch : Option N)
    (pathData : Option (List N)) (getLabel : NodeOrFree N → String)
    (eqProp : Option (NodeOrFree N → NodeOrFree N → Bool)) : List (InternalOption N) :=
  match optionsData with
  | some data =>
      if freeSolo && !(inputValue == "") &&
          (match value with
           | CurValue.multi _ => true
           | CurValue.single none => true
           | CurValue.single (some v) => !(getLabel v.node == inputValue)) then
        let freeSoloOption : InternalOption N :=
          ⟨Sum.inr ⟨inputValue, curBranch⟩, NodeType.LEAF, pathData.getD []⟩
        if (valueAsList value).all
            (fun v? =>
              match v? with
              | none => true
              | some v => !(isFreeNode v.node && isOptionEqualToValue eqProp freeSoloOption v)) then
          data ++ [freeSoloOption]
        else data
      else data
  | none =>
      match curBranch with
      | none => []
      | some b => [⟨Sum.inl b, NodeType.UP_BRANCH, []⟩]

/-- A concrete candidate list (one entry of each kind over `Nat` nodes)
used to instantiate the filter-ordering theorem. -/
def filterWitnessOpts : List (InternalOption Nat) :=
  [⟨Sum.inl 9, NodeType.UP_BRANCH, []⟩, ⟨Sum.inl 1, NodeType.DOWN_BRANCH, []⟩,
    ⟨Sum.inl 2, NodeType.LEAF, []⟩, ⟨Sum.inr ⟨"z", none⟩, NodeType.LEAF, []⟩]

/-! ## Theorems -/

/-- C9: for every step sequence in which no yielded value is deferred, the
trampoline returns an immediate (non-deferred) result equal to the step
sequence's final return value; a deferred result is produced only when
some yielded value along the executed sequence is actually deferred. -/
theorem C9_theorem {α ρ : Type} (p : GenProg α ρ) :
    (allSync p = true → asyncOrAsyncBlock p = SyncOrAsync.now (finalReturn p))
    ∧ (∀ r : ρ, asyncOrAsyncBlock p = SyncOrAsync.promise r → allSync p = false) := by
  induction p with
  | ret r =>
      refine ⟨fun _ => rfl, fun r h => ?_⟩
      simp [asyncOrAsyncBlock] at h
  | yld v k ih =>
      cases v with
      | now a =>
          refine ⟨fun h => ?_, fun r h => ?_⟩
          · have h' : allSync (k a) = true := by simpa [allSync] using h
            simpa [asyncOrAsyncBlock, finalReturn] using (ih a).1 h'
          · have h' : asyncOrAsyncBlock (k a) = SyncOrAsync.promise r := by
              simpa [asyncOrAsyncBlock] using h
            simpa [allSync] using (ih a).2 r h'
      | promise a =>
          refine ⟨fun h => ?_, fun r _ => ?_⟩
          · simp [allSync] at h
          · simp [allSync]

/-- C9 witness: a concrete fully synchronous two-step sequence produces an
immediate result equal to its return value. -/
theorem C9_witness :
    asyncOrAsyncBlock (GenProg.yld (SyncOrAsync.now 1) fun n => GenProg.ret (n + 1)) =
      SyncOrAsync.now 2 :=
  (C9_theorem (GenProg.yld (SyncOrAsync.now 1) fun n => GenProg.ret (n + 1))).1 rfl

/-- C5: when iterating `getParent` from `n` yields the ancestor chain `cs`
(nearest ancestor first), `getPathToNode` returns exactly `cs`; it returns
`[]` when `getParent n` is immediately nullish; and for a free-solo node
the walk is seeded from the carried branch reference — `[]` when the
carried branch is `none`, and `p :: ancestorsOf p` when it is `some p` —
without ever applying `getParent` to the free-solo wrapper itself. -/
theorem C5_theorem {N : Type} (gp : N → Option N) (n : N) (cs : List N) (fuel : Nat)
    (h1 : ChainFrom gp (gp n) cs) (h2 : cs.length ≤ fuel) :
    getPathToNode (Sum.inl n) gp fuel = some cs
    ∧ (gp n = none → getPathToNode (Sum.inl n) gp fuel = some [])
    ∧ (∀ s : String, getPathToNode (Sum.inr ⟨s, none⟩) gp fuel = some [])
    ∧ (∀ (s : String) (bcs : List N), ChainFrom gp (some n) bcs → bcs.length ≤ fuel →
        getPathToNode (Sum.inr ⟨s, some n⟩) gp fuel = some bcs) := by
  refine ⟨pathLoop_of_chain h1 fuel h2, ?_, ?_, ?_⟩
  · intro hn
    show pathLoop gp (gp n) fuel = some []
    rw [hn]
    cases fuel <;> rfl
  · intro s
    cases fuel <;> rfl
  · intro s bcs hb hlen
    exact pathLoop_of_chain hb fuel hlen

/-- C5 witness: with `getParent` constantly nullish, the chain hypothesis
holds for the empty chain and path resolution returns `[]`. -/
theorem C5_witness :
    ChainFrom (fun _ : Nat => (none : Option Nat)) none []
    ∧ getPathToNode (Sum.inl 1) (fun _ : Nat => (none : Option Nat)) 1 = some [] :=
  ⟨ChainFrom.nil,
    (C5_theorem (fun _ : Nat => (none : Option Nat)) 1 [] 1 ChainFrom.nil
        (by decide)).1⟩

/-- C4: a child gets a `DOWN_BRANCH` entry iff `isBranch` answers true; it
gets both a `DOWN_BRANCH` and a `LEAF` entry iff `isBranch` and
`isBranchSelectable` both answer true; and it gets exactly one `LEAF`
entry and no `DOWN_BRANCH` entry iff `isBranch` answers false. -/
theorem C4_theorem {N : Type} (isBranchFn selectableFn : N → Bool) (path : List N) (c : N) :
    ((⟨Sum.inl c, NodeType.DOWN_BRANCH, path⟩ : InternalOption N) ∈
        parseChildNode isBranchFn selectableFn path c ↔ isBranchFn c = true)
    ∧ (((⟨Sum.inl c, NodeType.DOWN_BRANCH, path⟩ : InternalOption N) ∈
          parseChildNode isBranchFn selectableFn path c
        ∧ (⟨Sum.inl c, NodeType.LEAF, path⟩ : InternalOption N) ∈
            parseChildNode isBranchFn selectableFn path c) ↔
        (isBranchFn c = true ∧ selectableFn c = true))
    ∧ (isBranchFn c = false ↔
        parseChildNode isBranchFn selectableFn path c =
          [⟨Sum.inl c, NodeType.LEAF, path⟩]) := by
  cases hb : isBranchFn c <;> cases hs : selectableFn c <;>
    simp [parseChildNode, hb, hs]

/-- C4 witness: a branch-classified, non-selectable child gets a
`DOWN_BRANCH` entry. -/
theorem C4_witness :
    (⟨Sum.inl 0, NodeType.DOWN_BRANCH, []⟩ : InternalOption Nat) ∈
      parseChildNode (fun _ => true) (fun _ => false) [] 0 :=
  (C4_theorem (fun _ : Nat => true) (fun _ => false) [] 0).1.mpr rfl

/-- C3 counterexample: the claim that the exposed loading flag is true
whenever any of the Option/Path/Value resolutions is pending is false —
with only the value resolution pending (`valueLoading = true`), the flag
is `false`, because the source computes
`pathResult.loading || optionsResult.loading` only. -/
theorem C3_counterexample :
    ¬ ∀ pathLoading optionsLoading valueLoading : Bool,
        loadingOptions pathLoading optionsLoading =
          (pathLoading || optionsLoading || valueLoading) := by
  intro h
  have := h false false true
  simp [loadingOptions] at this

/-- C3 (amended): the exposed loading flag is true iff the path resolution
or the option-builder resolution is pending; the value resolution does not
feed it. -/
theorem C3_theorem (pathLoading optionsLoading : Bool) :
    (loadingOptions pathLoading optionsLoading = true ↔
        (pathLoading = true ∨ optionsLoading = true))
    ∧ (loadingOptions pathLoading optionsLoading = false ↔
        (pathLoading = false ∧ optionsLoading = false)) := by
  cases pathLoading <;> cases optionsLoading <;> simp [loadingOptions]

/-- C3 witness: pending path resolution sets the flag. -/
theorem C3_witness : loadingOptions true false = true :=
  (C3_theorem true false).1.mpr (Or.inl rfl)

/-- C2: evaluation of `getOpts` at the failing input.  With `Node` a
JavaScript number and `curBranch = 0` — non-null but falsy — no
`UP_BRANCH` entry is emitted even though the claim requires exactly one,
because `curBranch ?? null !== null` parses as `curBranch ?? (null !==
null)`, a truthiness test.  For a truthy branch node the claimed behaviour
(exactly one `UP_BRANCH` entry whose path is the ancestor chain excluding
the branch) holds, and at root no `UP_BRANCH` entry is emitted. -/
theorem C2_theorem :
    getOpts (some 0) (fun n : Nat => !(n == 0)) [0] (fun _ => TimedV.now true)
        (fun _ => TimedV.now false) [] = []
    ∧ getOpts (some 1) (fun n : Nat => !(n == 0)) [1, 7] (fun _ => TimedV.now true)
        (fun _ => TimedV.now false) [] = [⟨Sum.inl 1, NodeType.UP_BRANCH, [7]⟩]
    ∧ getOpts none (fun n : Nat => !(n == 0)) [] (fun _ => TimedV.now true)
        (fun _ => TimedV.now false) [] = [] := by
  decide

theorem startChild_sync {N : Type} (isBranchFn selectableFn : N → TimedV Bool)
    (path : List N) (c : N) (hb : (isBranchFn c).isNow = true)
    (hs : (selectableFn c).isNow = true) :
    startChild isBranchFn selectableFn path c =
      (parseChildNode (fun x => (isBranchFn x).tval) (fun x => (selectableFn x).tval)
          path c,
        none) := by
  cases hcb : isBranchFn c with
  | later t b => simp [TimedV.isNow, hcb] at hb
  | now b =>
      cases hcs : selectableFn c with
      | later t s => simp [TimedV.isNow, hcs] at hs
      | now s =>
          cases b <;> cases s <;>
            simp [startChild, afterIsBranch, parseChildNode, hcb, hcs, TimedV.tval]

theorem phase1_sync {N : Type} (isBranchFn selectableFn : N → TimedV Bool) (path : List N) :
    ∀ children : List N,
      (∀ c ∈ children, (isBranchFn c).isNow = true ∧ (selectableFn c).isNow = true) →
      phase1 isBranchFn selectableFn path children =
        (children.flatMap fun c =>
            parseChildNode (fun x => (isBranchFn x).tval) (fun x => (selectableFn x).tval)
              path c,
          []) := by
  intro children
  induction children with
  | nil => intro _; rfl
  | cons c cs ih =>
      intro h
      have hc := h c (List.mem_cons_self c cs)
      have hrest := ih fun x hx => h x (List.mem_cons_of_mem c hx)
      simp [phase1, startChild_sync isBranchFn selectableFn path c hc.1 hc.2, hrest,
        List.flatMap_cons]

theorem phase2_nil {N : Type} (selectableFn : N → TimedV Bool) (path : List N)
    (fuel : Nat) (acc : List (InternalOption N)) :
    phase2 selectableFn path fuel [] acc = acc := by
  cases fuel with
  | zero => rfl
  | succ f => simp [phase2, pickMin]

/-- C1 (amended): entries are appended to the combined output as each
child's classification completes; when every per-child classification
lookup resolves synchronously, the combined output lists the children's
entries in exactly the children-lookup order. -/
theorem C1_theorem {N : Type} (isBranchFn selectableFn : N → TimedV Bool) (path : List N)
    (children : List N)
    (h : ∀ c ∈ children, (isBranchFn c).isNow = true ∧ (selectableFn c).isNow = true) :
    childOptions isBranchFn selectableFn path children =
      children.flatMap fun c =>
        parseChildNode (fun x => (isBranchFn x).tval) (fun x => (selectableFn x).tval)
          path c := by
  simp [childOptions, phase1_sync isBranchFn selectableFn path children h, phase2_nil]

/-- C1 witness: two synchronously classified branch children come out in
children-lookup order. -/
theorem C1_witness :
    childOptions (fun _ : Nat => TimedV.now true) (fun _ => TimedV.now false) [] [0, 1] =
      [⟨Sum.inl 0, NodeType.DOWN_BRANCH, []⟩, ⟨Sum.inl 1, NodeType.DOWN_BRANCH, []⟩] := by
  rw [C1_theorem (fun _ : Nat => TimedV.now true) (fun _ => TimedV.now false) [] [0, 1]
      (by decide)]
  decide

/-- C1 counterexample: with children `[0, 1]` where child `0`'s `isBranch`
lookup is deferred (resolving at time 5) and child `1`'s is synchronous,
the combined output is `[DownBranch 1, DownBranch 0]` — completion order,
not the children-lookup order `[DownBranch 0, DownBranch 1]` — so the
claim that completion order never reorders the output is false. -/
theorem C1_counterexample :
    childOptions (fun c : Nat => if c == 0 then TimedV.later 5 true else TimedV.now true)
        (fun _ => TimedV.now false) [] [0, 1] =
      [⟨Sum.inl 1, NodeType.DOWN_BRANCH, []⟩, ⟨Sum.inl 0, NodeType.DOWN_BRANCH, []⟩]
    ∧ childOptions (fun c : Nat => if c == 0 then TimedV.later 5 true else TimedV.now true)
        (fun _ => TimedV.now false) [] [0, 1] ≠
      ([0, 1].flatMap fun c =>
        parseChildNode
          (fun x => ((if x == 0 then TimedV.later 5 true else TimedV.now true) : TimedV Bool).tval)
          (fun _ => (TimedV.now false).tval) [] c) := by
  decide

theorem length_and_zip_all_iff {N : Type} [DecidableEq N] :
    ∀ l1 l2 : List N,
      (l1.length = l2.length ∧ ((l1.zip l2).all fun p => p.1 == p.2) = true) ↔ l1 = l2 := by
  intro l1
  induction l1 with
  | nil =>
      intro l2
      cases l2 <;> simp
  | cons a l ih =>
      intro l2
      cases l2 with
      | nil => simp
      | cons b m =>
          simp only [List.length_cons, List.zip_cons_cons, List.all_cons, Bool.and_eq_true,
            beq_iff_eq, List.cons.injEq]
          constructor
          · rintro ⟨hlen, hab, hrest⟩
            exact ⟨hab, (ih m).mp ⟨by omega, hrest⟩⟩
          · rintro ⟨hab, hlm⟩
            have h2 := (ih m).mpr hlm
            exact ⟨by omega, hab, h2.2⟩

/-- C6: the entry-equivalence function returns false whenever either entry
is branch-typed (`UP_BRANCH` or `DOWN_BRANCH`), for every override and
even when both entries reference the same node; and for two leaf entries
over tree nodes, absent an override, it returns true iff the node
identities match and the paths are element-wise equal. -/
theorem C6_theorem {N : Type} [DecidableEq N]
    (eqProp : Option (NodeOrFree N → NodeOrFree N → Bool)) (o v : InternalOption N) :
    ((o.type = NodeType.UP_BRANCH ∨ o.type = NodeType.DOWN_BRANCH ∨
        v.type = NodeType.UP_BRANCH ∨ v.type = NodeType.DOWN_BRANCH) →
      isOptionEqualToValue eqProp o v = false)
    ∧ (∀ n1 n2 : N, o.type = NodeType.LEAF → v.type = NodeType.LEAF →
        o.node = Sum.inl n1 → v.node = Sum.inl n2 →
        (isOptionEqualToValue none o v = true ↔ (n1 = n2 ∧ o.path = v.path))) := by
  constructor
  · intro h
    rcases h with h | h | h | h <;> simp [isOptionEqualToValue, h]
  · intro n1 n2 ht1 ht2 hn1 hn2
    simp only [isOptionEqualToValue, ht1, ht2, hn1, hn2]
    rw [if_neg (by decide)]
    simp only [Bool.and_eq_true, beq_iff_eq]
    constructor
    · rintro ⟨⟨h12, hlen⟩, hall⟩
      exact ⟨h12, (length_and_zip_all_iff o.path v.path).mp ⟨hlen, hall⟩⟩
    · rintro ⟨h12, hp⟩
      have h2 := (length_and_zip_all_iff o.path v.path).mpr hp
      exact ⟨⟨h12, h2.1⟩, h2.2⟩

/-- C6 witness: two identical leaf entries over the same tree node and
path are equal; the same node wrapped as `UP_BRANCH` entries is not. -/
theorem C6_witness :
    isOptionEqualToValue (N := Nat) none ⟨Sum.inl 3, NodeType.LEAF, [7]⟩
        ⟨Sum.inl 3, NodeType.LEAF, [7]⟩ = true
    ∧ isOptionEqualToValue (N := Nat) none ⟨Sum.inl 3, NodeType.UP_BRANCH, [7]⟩
        ⟨Sum.inl 3, NodeType.UP_BRANCH, [7]⟩ = false :=
  ⟨((C6_theorem none ⟨Sum.inl 3, NodeType.LEAF, [7]⟩ ⟨Sum.inl 3, NodeType.LEAF, [7]⟩).2
        3 3 rfl rfl rfl rfl).mpr ⟨rfl, rfl⟩,
    (C6_theorem none ⟨Sum.inl 3, NodeType.UP_BRANCH, [7]⟩
        ⟨Sum.inl 3, NodeType.UP_BRANCH, [7]⟩).1 (Or.inl rfl)⟩

/-- C8: in single-select mode, when the held selection's label equals the
query text and no candidate entry is equivalent to it, the filter returns
the candidate list unmodified, for every external filter predicate. -/
theorem C8_theorem {N : Type} [DecidableEq N] (valueOpt : InternalOption N)
    (inputValue : String) (getLabel : NodeOrFree N → String)
    (eqProp : Option (NodeOrFree N → NodeOrFree N → Bool)) (fProp : List N → List N)
    (options : List (InternalOption N))
    (h1 : getLabel valueOpt.node = inputValue)
    (h2 : (options.any fun o => isOptionEqualToValue eqProp o valueOpt) = false) :
    filterOptions false (some valueOpt) inputValue getLabel eqProp fProp options =
      options := by
  have hb : filterBypass false (some valueOpt) inputValue getLabel eqProp options
      = true := by
    simp [filterBypass, h1, h2]
  simp [filterOptions, hb]

/-- C8 witness: a held leaf selection labelled like the query, absent from
the candidates, short-circuits the filter. -/
theorem C8_witness :
    filterOptions false (some ⟨Sum.inl 5, NodeType.LEAF, []⟩) "x"
        (fun _ : NodeOrFree Nat => "x") none (fun _ => [])
        [⟨Sum.inl 1, NodeType.LEAF, []⟩] = [⟨Sum.inl 1, NodeType.LEAF, []⟩] :=
  C8_theorem ⟨Sum.inl 5, NodeType.LEAF, []⟩ "x" (fun _ => "x") none (fun _ => [])
    [⟨Sum.inl 1, NodeType.LEAF, []⟩] rfl (by decide)

theorem mapSet_mem {N α : Type} [DecidableEq N] {m : List (N × α)} {k : N} {v : α} :
    ∀ kv ∈ mapSet m k v, kv ∈ m ∨ kv.2 = v := by
  intro kv hkv
  unfold mapSet at hkv
  split at hkv
  · rcases List.mem_map.mp hkv with ⟨p, hp, heq⟩
    by_cases hpk : (p.1 == k) = true
    · rw [if_pos hpk] at heq
      right
      rw [← heq]
    · rw [if_neg hpk] at heq
      left
      rw [← heq]
      exact hp
  · rcases List.mem_append.mp hkv with h | h
    · exact Or.inl h
    · right
      rw [List.mem_singleton] at h
      rw [h]

theorem filterStep_branchMap {N : Type} [DecidableEq N] (acc : FilterAcc N)
    (o : InternalOption N) :
    ∀ kv ∈ (filterStep acc o).branchOptionsMap,
      kv ∈ acc.branchOptionsMap ∨ (kv.2 = o ∧ o.type = NodeType.DOWN_BRANCH) := by
  intro kv hkv
  unfold filterStep at hkv
  split at hkv
  · exact Or.inl hkv
  · split at hkv
    · exact Or.inl hkv
    · split at hkv
      next h2 =>
        rcases mapSet_mem kv hkv with h | h
        · exact Or.inl h
        · exact Or.inr ⟨h, by simpa using h2⟩
      next h2 => exact Or.inl hkv

theorem filterStep_leafMap {N : Type} [DecidableEq N] (acc : FilterAcc N)
    (o : InternalOption N) :
    ∀ kv ∈ (filterStep acc o).leafOptionsMap,
      kv ∈ acc.leafOptionsMap ∨ (kv.2 = o ∧ o.type = NodeType.LEAF) := by
  intro kv hkv
  unfold filterStep at hkv
  split at hkv
  next h1 => exact Or.inl hkv
  next h1 =>
    split at hkv
    · exact Or.inl hkv
    · split at hkv
      next h2 => exact Or.inl hkv
      next h2 =>
        rcases mapSet_mem kv hkv with h | h
        · exact Or.inl h
        · refine Or.inr ⟨h, ?_⟩
          cases ht : o.type with
          | LEAF => rfl
          | DOWN_BRANCH => rw [ht] at h2; simp at h2
          | UP_BRANCH => rw [ht] at h1; simp at h1

theorem filterStep_free {N : Type} [DecidableEq N] (acc : FilterAcc N)
    (o : InternalOption N) :
    (filterStep acc o).freeSoloOptions =
      acc.freeSoloOptions ++
        (if (!(o.type == NodeType.UP_BRANCH) && isFreeNode o.node) = true then [o]
         else []) := by
  unfold filterStep
  split
  next h1 => simp [h1]
  next h1 =>
    split
    next f heq => simp [heq, isFreeNode, h1]
    next n heq =>
      split
      · simp [heq, isFreeNode]
      · simp [heq, isFreeNode]

theorem filterStep_up {N : Type} [DecidableEq N] (acc : FilterAcc N)
    (o : InternalOption N) :
    (filterStep acc o).upBranch =
      if (o.type == NodeType.UP_BRANCH) = true then some o else acc.upBranch := by
  unfold filterStep
  split
  next h1 => rfl
  next h1 =>
    split
    · rfl
    · split
      · rfl
      · rfl

theorem foldl_branchMap_all {N : Type} [DecidableEq N] (S : InternalOption N → Prop) :
    ∀ (l : List (InternalOption N)) (acc : FilterAcc N),
      (∀ kv ∈ acc.branchOptionsMap, S kv.2) →
      (∀ o ∈ l, o.type = NodeType.DOWN_BRANCH → S o) →
      ∀ kv ∈ (l.foldl filterStep acc).branchOptionsMap, S kv.2 := by
  intro l
  induction l with
  | nil => intro acc hacc _ kv hkv; exact hacc kv hkv
  | cons o l ih =>
      intro acc hacc hl
      simp only [List.foldl_cons]
      apply ih
      · intro kv hkv
        rcases filterStep_branchMap acc o kv hkv with h | h
        · exact hacc kv h
        · rw [h.1]
          exact hl o (List.mem_cons_self o l) h.2
      · intro x hx hxt
        exact hl x (List.mem_cons_of_mem o hx) hxt

theorem foldl_leafMap_all {N : Type} [DecidableEq N] (S : InternalOption N → Prop) :
    ∀ (l : List (InternalOption N)) (acc : FilterAcc N),
      (∀ kv ∈ acc.leafOptionsMap, S kv.2) →
      (∀ o ∈ l, o.type = NodeType.LEAF → S o) →
      ∀ kv ∈ (l.foldl filterStep acc).leafOptionsMap, S kv.2 := by
  intro l
  induction l with
  | nil => intro acc hacc _ kv hkv; exact hacc kv hkv
  | cons o l ih =>
      intro acc hacc hl
      simp only [List.foldl_cons]
      apply ih
      · intro kv hkv
        rcases filterStep_leafMap acc o kv hkv with h | h
        · exact hacc kv h
        · rw [h.1]
          exact hl o (List.mem_cons_self o l) h.2
      · intro x hx hxt
        exact hl x (List.mem_cons_of_mem o hx) hxt

theorem foldl_free {N : Type} [DecidableEq N] :
    ∀ (l : List (InternalOption N)) (acc : FilterAcc N),
      (l.foldl filterStep acc).freeSoloOptions =
        acc.freeSoloOptions ++
          l.filter fun o => !(o.type == NodeType.UP_BRANCH) && isFreeNode o.node := by
  intro l
  induction l with
  | nil => intro acc; simp
  | cons o l ih =>
      intro acc
      simp only [List.foldl_cons, ih, filterStep_free]
      by_cases hp : (!(o.type == NodeType.UP_BRANCH) && isFreeNode o.node) = true
      · rw [if_pos hp]
        simp [List.filter_cons, hp]
      · rw [if_neg hp]
        simp [List.filter_cons, hp]

theorem foldl_up_cases {N : Type} [DecidableEq N] :
    ∀ (l : List (InternalOption N)) (acc : FilterAcc N) (u : InternalOption N),
      (l.foldl filterStep acc).upBranch = some u →
      acc.upBranch = some u ∨ (u ∈ l ∧ u.type = NodeType.UP_BRANCH) := by
  intro l
  induction l with
  | nil => intro acc u h; exact Or.inl h
  | cons o l ih =>
      intro acc u h
      simp only [List.foldl_cons] at h
      rcases ih (filterStep acc o) u h with h' | h'
      · rw [filterStep_up] at h'
        by_cases h1 : (o.type == NodeType.UP_BRANCH) = true
        · rw [if_pos h1] at h'
          cases Option.some.inj h'
          exact Or.inr ⟨List.mem_cons_self o l, by simpa using h1⟩
        · rw [if_neg h1] at h'
          exact Or.inl h'
      · exact Or.inr ⟨List.mem_cons_of_mem o h'.1, h'.2⟩

theorem foldl_up_mono {N : Type} [DecidableEq N] :
    ∀ (l : List (InternalOption N)) (acc : FilterAcc N),
      (acc.upBranch).isSome = true → ((l.foldl filterStep acc).upBranch).isSome = true := by
  intro l
  induction l with
  | nil => intro acc h; exact h
  | cons o l ih =>
      intro acc h
      simp only [List.foldl_cons]
      apply ih
      rw [filterStep_up]
      by_cases h1 : (o.type == NodeType.UP_BRANCH) = true
      · rw [if_pos h1]; rfl
      · rw [if_neg h1]; exact h

theorem foldl_up_some {N : Type} [DecidableEq N] :
    ∀ (l : List (InternalOption N)) (acc : FilterAcc N) (u : InternalOption N),
      u ∈ l → u.type = NodeType.UP_BRANCH →
      ((l.foldl filterStep acc).upBranch).isSome = true := by
  intro l
  induction l with
  | nil => intro acc u h; exact absurd h (List.not_mem_nil u)
  | cons o l ih =>
      intro acc u hu hut
      simp only [List.foldl_cons]
      rcases List.mem_cons.mp hu with h | h
      · apply foldl_up_mono
        rw [filterStep_up, if_pos (by rw [← h, hut]; rfl)]
        rfl
      · exact ih (filterStep acc o) u h hut

theorem collectStep_fst_mem {N : Type} [DecidableEq N]
    (bm lm : List (N × InternalOption N))
    (fl : List (InternalOption N) × List (InternalOption N)) (n : N) :
    ∀ o ∈ (collectStep bm lm fl n).1, o ∈ fl.1 ∨ mapGet bm n = some o := by
  intro o ho
  unfold collectStep at ho
  cases hb : mapGet bm n <;> cases hl : mapGet lm n <;> simp [hb, hl] at ho
  · exact Or.inl ho
  · exact Or.inl ho
  · rcases ho with h | h
    · exact Or.inl h
    · exact Or.inr (by rw [h])
  · rcases ho with h | h
    · exact Or.inl h
    · exact Or.inr (by rw [h])

theorem collectStep_snd_mem {N : Type} [DecidableEq N]
    (bm lm : List (N × InternalOption N))
    (fl : List (InternalOption N) × List (InternalOption N)) (n : N) :
    ∀ o ∈ (collectStep bm lm fl n).2, o ∈ fl.2 ∨ mapGet lm n = some o := by
  intro o ho
  unfold collectStep at ho
  cases hb : mapGet bm n <;> cases hl : mapGet lm n <;> simp [hb, hl] at ho
  · exact Or.inl ho
  · rcases ho with h | h
    · exact Or.inl h
    · exact Or.inr (by rw [h])
  · exact Or.inl ho
  · rcases ho with h | h
    · exact Or.inl h
    · exact Or.inr (by rw [h])

theorem collect_fst_all {N : Type} [DecidableEq N]
    (bm lm : List (N × InternalOption N)) (S : InternalOption N → Prop)
    (hbm : ∀ (n : N) (o : InternalOption N), mapGet bm n = some o → S o) :
    ∀ (matched : List N) (fl : List (InternalOption N) × List (InternalOption N)),
      (∀ o ∈ fl.1, S o) →
      ∀ o ∈ (matched.foldl (collectStep bm lm) fl).1, S o := by
  intro matched
  induction matched with
  | nil => intro fl hfl o ho; exact hfl o ho
  | cons n ns ih =>
      intro fl hfl
      simp only [List.foldl_cons]
      apply ih
      intro o ho
      rcases collectStep_fst_mem bm lm fl n o ho with h | h
      · exact hfl o h
      · exact hbm n o h

theorem collect_snd_all {N : Type} [DecidableEq N]
    (bm lm : List (N × InternalOption N)) (S : InternalOption N → Prop)
    (hlm : ∀ (n : N) (o : InternalOption N), mapGet lm n = some o → S o) :
    ∀ (matched : List N) (fl : List (InternalOption N) × List (InternalOption N)),
      (∀ o ∈ fl.2, S o) →
      ∀ o ∈ (matched.foldl (collectStep bm lm) fl).2, S o := by
  intro matched
  induction matched with
  | nil => intro fl hfl o ho; exact hfl o ho
  | cons n ns ih =>
      intro fl hfl
      simp only [List.foldl_cons]
      apply ih
      intro o ho
      rcases collectStep_snd_mem bm lm fl n o ho with h | h
      · exact hfl o h
      · exact hlm n o h

theorem mapGet_mem {N α : Type} [DecidableEq N] {m : List (N × α)} {k : N} {v : α}
    (h : mapGet m k = some v) : ∃ kk : N, (kk, v) ∈ m := by
  unfold mapGet at h
  rcases Option.map_eq_some'.mp h with ⟨kv, hfind, hsnd⟩
  have hm := List.mem_of_find?_eq_some hfind
  refine ⟨kv.1, ?_⟩
  rw [← hsnd]
  simpa using hm

/-- C7 (amended): whenever the single-select bypass does not trigger, the
filter's output is the `UpBranch` entry (if any) first, then surviving
`DownBranch` entries, then surviving `Leaf` entries, then every FreeText
entry of the input — the latter and the `UpBranch` entry surviving
regardless of the query text and of the external predicate's result
(`fProp` is universally quantified). -/
theorem C7_theorem {N : Type} [DecidableEq N] (multiple : Bool)
    (value : Option (InternalOption N)) (inputValue : String)
    (getLabel : NodeOrFree N → String)
    (eqProp : Option (NodeOrFree N → NodeOrFree N → Bool))
    (fProp : List N → List N) (options : List (InternalOption N))
    (hnb : filterBypass multiple value inputValue getLabel eqProp options = false) :
    ∃ downs leafs : List (InternalOption N),
      filterOptions multiple value inputValue getLabel eqProp fProp options =
          ((filterReduce options).upBranch).toList ++ downs ++ leafs ++
            (filterReduce options).freeSoloOptions
        ∧ (∀ o ∈ downs, o.type = NodeType.DOWN_BRANCH ∧ o ∈ options)
        ∧ (∀ o ∈ leafs, o.type = NodeType.LEAF ∧ o ∈ options)
        ∧ (filterReduce options).freeSoloOptions =
            options.filter
              (fun o => !(o.type == NodeType.UP_BRANCH) && isFreeNode o.node)
        ∧ (∀ u, (filterReduce options).upBranch = some u →
            u.type = NodeType.UP_BRANCH ∧ u ∈ options)
        ∧ ((∃ u ∈ options, u.type = NodeType.UP_BRANCH) →
            ((filterReduce options).upBranch).isSome = true) := by
  refine ⟨(collectFiltered (filterReduce options).branchOptionsMap
      (filterReduce options).leafOptionsMap (fProp (filterReduce options).optionKeys)).1,
    (collectFiltered (filterReduce options).branchOptionsMap
      (filterReduce options).leafOptionsMap (fProp (filterReduce options).optionKeys)).2,
    ?_, ?_, ?_, ?_, ?_, ?_⟩
  · simp only [filterOptions, hnb, Bool.false_eq_true, if_false]
    cases h : (filterReduce options).upBranch with
    | none => simp
    | some u => simp
  · intro o ho
    unfold collectFiltered at ho
    refine collect_fst_all (filterReduce options).branchOptionsMap
      (filterReduce options).leafOptionsMap
      (fun x => x.type = NodeType.DOWN_BRANCH ∧ x ∈ options) ?_
      (fProp (filterReduce options).optionKeys) ([], []) (by simp) o ho
    intro n o' hget
    rcases mapGet_mem hget with ⟨kk, hkk⟩
    unfold filterReduce at hkk
    exact foldl_branchMap_all (fun x => x.type = NodeType.DOWN_BRANCH ∧ x ∈ options)
      options ⟨none, [], [], [], []⟩ (by simp) (fun x hx hxt => ⟨hxt, hx⟩) (kk, o') hkk
  · intro o ho
    unfold collectFiltered at ho
    refine collect_snd_all (filterReduce options).branchOptionsMap
      (filterReduce options).leafOptionsMap
      (fun x => x.type = NodeType.LEAF ∧ x ∈ options) ?_
      (fProp (filterReduce options).optionKeys) ([], []) (by simp) o ho
    intro n o' hget
    rcases mapGet_mem hget with ⟨kk, hkk⟩
    unfold filterReduce at hkk
    exact foldl_leafMap_all (fun x => x.type = NodeType.LEAF ∧ x ∈ options)
      options ⟨none, [], [], [], []⟩ (by simp) (fun x hx hxt => ⟨hxt, hx⟩) (kk, o') hkk
  · unfold filterReduce
    rw [foldl_free]
    simp
  · intro u hu
    unfold filterReduce at hu
    rcases foldl_up_cases options ⟨none, [], [], [], []⟩ u hu with h | h
    · simp at h
    · exact ⟨h.2, h.1⟩
  · rintro ⟨u, hu, hut⟩
    unfold filterReduce
    exact foldl_up_some options ⟨none, [], [], [], []⟩ u hu hut

/-- C7 witness: a candidate list holding one entry of each kind, with the
bypass off, decomposes as claimed. -/
theorem C7_witness :
    filterBypass true none "" (fun _ : NodeOrFree Nat => "") none filterWitnessOpts = false
    ∧ ∃ downs leafs : List (InternalOption Nat),
        filterOptions true none "" (fun _ : NodeOrFree Nat => "") none (fun l => l)
            filterWitnessOpts =
            ((filterReduce filterWitnessOpts).upBranch).toList ++ downs ++ leafs ++
              (filterReduce filterWitnessOpts).freeSoloOptions
          ∧ (∀ o ∈ downs, o.type = NodeType.DOWN_BRANCH ∧ o ∈ filterWitnessOpts)
          ∧ (∀ o ∈ leafs, o.type = NodeType.LEAF ∧ o ∈ filterWitnessOpts)
          ∧ (filterReduce filterWitnessOpts).freeSoloOptions =
              filterWitnessOpts.filter
                (fun o => !(o.type == NodeType.UP_BRANCH) && isFreeNode o.node)
          ∧ (∀ u, (filterReduce filterWitnessOpts).upBranch = some u →
              u.type = NodeType.UP_BRANCH ∧ u ∈ filterWitnessOpts)
          ∧ ((∃ u ∈ filterWitnessOpts, u.type = NodeType.UP_BRANCH) →
              ((filterReduce filterWitnessOpts).upBranch).isSome = true) :=
  ⟨rfl, C7_theorem true none "" (fun _ => "") none (fun l => l) filterWitnessOpts rfl⟩

/-- C7 counterexample: when the single-select bypass triggers (held leaf
selection labelled like the query, absent from the candidates), the raw
candidate list is returned, so an input that lists a `LEAF` entry before
the `UP_BRANCH` entry comes back with the `UP_BRANCH` entry present but
not first — the claimed ordering does not hold for every input and query
state. -/
theorem C7_counterexample :
    filterOptions false (some ⟨Sum.inl 5, NodeType.LEAF, []⟩) "x"
        (fun _ : NodeOrFree Nat => "x") none (fun l => l)
        [⟨Sum.inl 1, NodeType.LEAF, []⟩, ⟨Sum.inl 2, NodeType.UP_BRANCH, []⟩] =
      [⟨Sum.inl 1, NodeType.LEAF, []⟩, ⟨Sum.inl 2, NodeType.UP_BRANCH, []⟩]
    ∧ (⟨Sum.inl 2, NodeType.UP_BRANCH, []⟩ : InternalOption Nat) ∈
        filterOptions false (some ⟨Sum.inl 5, NodeType.LEAF, []⟩) "x"
          (fun _ : NodeOrFree Nat => "x") none (fun l => l)
          [⟨Sum.inl 1, NodeType.LEAF, []⟩, ⟨Sum.inl 2, NodeType.UP_BRANCH, []⟩]
    ∧ (filterOptions false (some ⟨Sum.inl 5, NodeType.LEAF, []⟩) "x"
          (fun _ : NodeOrFree Nat => "x") none (fun l => l)
          [⟨Sum.inl 1, NodeType.LEAF, []⟩, ⟨Sum.inl 2, NodeType.UP_BRANCH, []⟩]).head? ≠
        some ⟨Sum.inl 2, NodeType.UP_BRANCH, []⟩ := by
  decide

/-- C10: while the option-builder result is unresolved (`optionsData =
none`) the exposed options list is the deterministic placeholder: empty at
root, otherwise exactly one `UP_BRANCH` entry for the active branch with
an empty path. -/
theorem C10_theorem {N : Type} [DecidableEq N] (freeSolo : Bool) (inputValue : String)
    (value : CurValue N) (curBranch : Option N) (pathData : Option (List N))
    (getLabel : NodeOrFree N → String)
    (eqProp : Option (NodeOrFree N → NodeOrFree N → Bool)) :
    (curBranch = none →
        optionsMemo none freeSolo inputValue value curBranch pathData getLabel eqProp = [])
    ∧ (∀ b : N, curBranch = some b →
        optionsMemo none freeSolo inputValue value curBranch pathData getLabel eqProp =
          [⟨Sum.inl b, NodeType.UP_BRANCH, []⟩]) := by
  constructor
  · intro h
    rw [h]
    rfl
  · intro b h
    rw [h]
    rfl

/-- C10 witness: pending options with an active branch expose exactly the
placeholder `UP_BRANCH` entry for it. -/
theorem C10_witness :
    optionsMemo (N := Nat) none true "q" (CurValue.single none) (some 4) none
        (fun _ => "") none = [⟨Sum.inl 4, NodeType.UP_BRANCH, []⟩] :=
  (C10_theorem true "q" (CurValue.single none) (some 4) none (fun _ => "") none).2 4 rfl

end TreeSelect
